import Mathlib

/-!
Verification of `src/space_usage/mod.rs` (tantivy space-usage accounting).

Shallow embedding choices:
* `ByteCount` (a `u64` newtype in the `common` crate, summable, zero default)
  is modelled as `Nat`.
* `Field` (a `u32` handle in `crate::schema`) is modelled as `Nat`.
* the fatal `assert!` in `FieldUsage::add_field_idx` is modelled by an
  `Option`-valued step: `none` is the panic, `some` the updated value.
* `HashMap<Field, FieldUsage>` is modelled as an association list together
  with an insert-or-replace operation, matching `HashMap::insert` semantics
  (`collect` over an iterator performs successive inserts, so a later entry
  with the same key overwrites an earlier one).
-/

namespace SpaceUsage

/-- `ByteCount`: opaque non-negative byte count, modelled as `Nat`. -/
abbrev ByteCount := Nat

/-- `Field`: small integer handle identifying a schema field. -/
abbrev Field := Nat

/-- `FieldUsage`: space usage of a field, broken into indexed sub-parts.
Mirrors the Rust struct `{ field, num_bytes, sub_num_bytes }`. -/
structure FieldUsage where
  field : Field
  num_bytes : ByteCount
  sub_num_bytes : List (Option ByteCount)
deriving Repr, DecidableEq

/-- `FieldUsage::empty(field)`. -/
def FieldUsage.empty (field : Field) : FieldUsage :=
  { field := field, num_bytes := 0, sub_num_bytes := [] }

/-- The conditional resize step of `add_field_idx`:
`if self.sub_num_bytes.len() < idx + 1 { self.sub_num_bytes.resize(idx + 1, None); }`. -/
def growTo (l : List (Option ByteCount)) (idx : Nat) : List (Option ByteCount) :=
  if l.length < idx + 1 then l ++ List.replicate (idx + 1 - l.length) none else l

/-- `FieldUsage::add_field_idx(idx, size)`: resize if needed, assert the slot
is empty (`none` result models the fatal assertion failure), then set the
slot and add `size` to `num_bytes`. -/
def FieldUsage.add_field_idx (fu : FieldUsage) (idx : Nat) (size : ByteCount) :
    Option FieldUsage :=
  let grown := growTo fu.sub_num_bytes idx
  if (grown.getD idx none).isSome then
    none
  else
    some { fu with
             sub_num_bytes := grown.set idx (some size),
             num_bytes := fu.num_bytes + size }

/-- `FieldUsage::total()`. -/
def FieldUsage.total (fu : FieldUsage) : ByteCount := fu.num_bytes

/-- A finite sequence of `add_field_idx` calls, failing if any call fails. -/
def FieldUsage.recordAll (fu : FieldUsage) (ops : List (Nat × ByteCount)) :
    Option FieldUsage :=
  ops.foldlM (fun acc op => acc.add_field_idx op.1 op.2) fu

/-- Sum of the present (`some`) entries of a `sub_num_bytes` sequence. -/
def sumPresent (l : List (Option ByteCount)) : ByteCount :=
  (l.map (fun o => o.getD 0)).sum

/-- `PerFieldSpaceUsage`: mapping from field to `FieldUsage` plus a cached
total. The `HashMap` is modelled as an association list. -/
structure PerFieldSpaceUsage where
  fields : List (Field × FieldUsage)
  total : ByteCount
deriving Repr, DecidableEq

/-- `HashMap::insert` semantics on the association-list model: replace the
entry when the key is present, otherwise append a new entry. -/
def assocInsert : List (Field × FieldUsage) → Field → FieldUsage →
    List (Field × FieldUsage)
  | [], k, v => [(k, v)]
  | p :: rest, k, v =>
    if p.1 == k then (k, v) :: rest else p :: assocInsert rest k v

/-- Association-list lookup, modelling `HashMap` lookup. -/
def assocFind (m : List (Field × FieldUsage)) (f : Field) : Option FieldUsage :=
  (m.find? (fun p => p.1 == f)).map Prod.snd

/-- `PerFieldSpaceUsage::new(fields)`: total is the sum over the *input list*
(computed before map construction), the map is built by successive inserts
keyed on `field_usage.field()`. -/
def PerFieldSpaceUsage.new (fus : List FieldUsage) : PerFieldSpaceUsage :=
  { total := (fus.map FieldUsage.total).sum,
    fields := fus.foldl (fun m fu => assocInsert m fu.field fu) [] }

/-- Lookup in the `fields` map of a `PerFieldSpaceUsage`. -/
def PerFieldSpaceUsage.getField (p : PerFieldSpaceUsage) (f : Field) :
    Option FieldUsage :=
  assocFind p.fields f

/-- `StoreSpaceUsage`: compressed data bytes plus offset-index bytes. -/
structure StoreSpaceUsage where
  data : ByteCount
  offsets : ByteCount
deriving Repr, DecidableEq

/-- `StoreSpaceUsage::new(data, offsets)`. -/
def StoreSpaceUsage.new (data offsets : ByteCount) : StoreSpaceUsage :=
  { data := data, offsets := offsets }

/-- `StoreSpaceUsage::data_usage()`. -/
def StoreSpaceUsage.data_usage (s : StoreSpaceUsage) : ByteCount := s.data

/-- `StoreSpaceUsage::offsets_usage()`. -/
def StoreSpaceUsage.offsets_usage (s : StoreSpaceUsage) : ByteCount := s.offsets

/-- `StoreSpaceUsage::total()`. -/
def StoreSpaceUsage.total (s : StoreSpaceUsage) : ByteCount := s.data + s.offsets

/-- `SegmentSpaceUsage`: all large components of one segment plus the cached
total. Field names follow the Rust struct. -/
structure SegmentSpaceUsage where
  num_docs : Nat
  termdict : PerFieldSpaceUsage
  postings : PerFieldSpaceUsage
  positions : PerFieldSpaceUsage
  fast_fields : PerFieldSpaceUsage
  fieldnorms : PerFieldSpaceUsage
  store : StoreSpaceUsage
  deletes : ByteCount
  total : ByteCount
deriving Repr, DecidableEq

/-- `SegmentSpaceUsage::new(...)`: caches the sum of the seven magnitudes. -/
def SegmentSpaceUsage.new (num_docs : Nat)
    (termdict postings positions fast_fields fieldnorms : PerFieldSpaceUsage)
    (store : StoreSpaceUsage) (deletes : ByteCount) : SegmentSpaceUsage :=
  { num_docs := num_docs,
    termdict := termdict,
    postings := postings,
    positions := positions,
    fast_fields := fast_fields,
    fieldnorms := fieldnorms,
    store := store,
    deletes := deletes,
    total := termdict.total + postings.total + positions.total +
      fast_fields.total + fieldnorms.total + store.total + deletes }

/-- Modelled from the spec: `SegmentComponent` (declared in `crate::index`,
outside the analyzed file). Its constructors are exactly the variants matched
exhaustively by `SegmentSpaceUsage::component`. -/
inductive SegmentComponent where
  | Postings
  | Positions
  | FastFields
  | FieldNorms
  | Terms
  | Store
  | TempStore
  | Delete
deriving Repr, DecidableEq

/-- `ComponentSpaceUsage`: tagged union of the three result shapes. -/
inductive ComponentSpaceUsage where
  | PerField (p : PerFieldSpaceUsage)
  | Store (s : StoreSpaceUsage)
  | Basic (b : ByteCount)
deriving Repr, DecidableEq

/-- Magnitude of a `ComponentSpaceUsage` (the wrapped value's total). -/
def ComponentSpaceUsage.total : ComponentSpaceUsage → ByteCount
  | .PerField p => p.total
  | .Store s => s.total
  | .Basic b => b

/-- `SegmentSpaceUsage::component(component)`: the fixed dispatch. Rust
clones the sub-structures; in the value model this is plain inclusion. -/
def SegmentSpaceUsage.component (s : SegmentSpaceUsage) :
    SegmentComponent → ComponentSpaceUsage
  | .Postings => .PerField s.postings
  | .Positions => .PerField s.positions
  | .FastFields => .PerField s.fast_fields
  | .FieldNorms => .PerField s.fieldnorms
  | .Terms => .PerField s.termdict
  | .Store => .Store s.store
  | .TempStore => .Store s.store
  | .Delete => .Basic s.deletes

/-- `SearcherSpaceUsage`: ordered segments plus a running total. -/
structure SearcherSpaceUsage where
  segments : List SegmentSpaceUsage
  total : ByteCount
deriving Repr, DecidableEq

/-- `SearcherSpaceUsage::new()`. -/
def SearcherSpaceUsage.new : SearcherSpaceUsage :=
  { segments := [], total := 0 }

/-- `SearcherSpaceUsage::add_segment(segment)`: add the segment's total to
the running total and push the segment. -/
def SearcherSpaceUsage.add_segment (s : SearcherSpaceUsage)
    (seg : SegmentSpaceUsage) : SearcherSpaceUsage :=
  { segments := s.segments ++ [seg], total := s.total + seg.total }

/-- A finite sequence of `add_segment` calls. -/
def SearcherSpaceUsage.addAll (s : SearcherSpaceUsage)
    (segs : List SegmentSpaceUsage) : SearcherSpaceUsage :=
  segs.foldl SearcherSpaceUsage.add_segment s

/-! ### Helper lemmas -/

theorem growTo_getD (l : List (Option ByteCount)) (idx j : Nat) :
    (growTo l idx).getD j none = l.getD j none := by
  simp only [growTo]
  split
  · rw [List.getD_eq_getElem?_getD, List.getD_eq_getElem?_getD, List.getElem?_append]
    split
    · rfl
    · rename_i h hj
      rw [List.getElem?_replicate]
      have hnone : l[j]? = none := by
        rw [List.getElem?_eq_none_iff]
        omega
      rw [hnone]
      split <;> rfl
  · rfl

theorem growTo_length (l : List (Option ByteCount)) (idx : Nat) :
    (growTo l idx).length = max l.length (idx + 1) := by
  simp only [growTo]
  split
  · simp only [List.length_append, List.length_replicate]
    omega
  · omega

theorem getD_isSome_lt {l : List (Option ByteCount)} {idx : Nat}
    (h : (l.getD idx none).isSome) : idx < l.length := by
  by_contra hc
  rw [List.getD_eq_default _ _ (by omega)] at h
  simp at h

theorem growTo_of_present {l : List (Option ByteCount)} {idx : Nat}
    (h : (l.getD idx none).isSome) : growTo l idx = l := by
  have := getD_isSome_lt h
  simp only [growTo]
  split
  · omega
  · rfl

theorem add_field_idx_of_present {fu : FieldUsage} {idx : Nat} (s : ByteCount)
    (h : (fu.sub_num_bytes.getD idx none).isSome) :
    fu.add_field_idx idx s = none := by
  simp only [FieldUsage.add_field_idx, growTo_getD, h, if_pos]

theorem add_field_idx_of_absent {fu : FieldUsage} {idx : Nat} (s : ByteCount)
    (h : fu.sub_num_bytes.getD idx none = none) :
    fu.add_field_idx idx s = some
      { field := fu.field,
        num_bytes := fu.num_bytes + s,
        sub_num_bytes := (growTo fu.sub_num_bytes idx).set idx (some s) } := by
  simp only [FieldUsage.add_field_idx, growTo_getD, h, Option.isSome_none,
    Bool.false_eq_true, if_false]

theorem sumPresent_cons (a : Option ByteCount) (t : List (Option ByteCount)) :
    sumPresent (a :: t) = a.getD 0 + sumPresent t := rfl

theorem sumPresent_append (l₁ l₂ : List (Option ByteCount)) :
    sumPresent (l₁ ++ l₂) = sumPresent l₁ + sumPresent l₂ := by
  simp [sumPresent]

theorem sumPresent_replicate_none (n : Nat) :
    sumPresent (List.replicate n none) = 0 := by
  induction n with
  | zero => rfl
  | succ k ih => simpa [List.replicate_succ, sumPresent_cons] using ih

theorem sumPresent_growTo (l : List (Option ByteCount)) (idx : Nat) :
    sumPresent (growTo l idx) = sumPresent l := by
  simp only [growTo]
  split
  · rw [sumPresent_append, sumPresent_replicate_none]
    exact Nat.add_zero _
  · rfl

theorem sumPresent_set {m : List (Option ByteCount)} {idx : Nat} (s : ByteCount)
    (hlt : idx < m.length) (habs : m.getD idx none = none) :
    sumPresent (m.set idx (some s)) = sumPresent m + s := by
  induction m generalizing idx with
  | nil => simp at hlt
  | cons a t ih =>
    cases idx with
    | zero =>
      rw [List.getD_cons_zero] at habs
      subst habs
      show sumPresent (some s :: t) = sumPresent (none :: t) + s
      rw [sumPresent_cons, sumPresent_cons, Option.getD_some, Option.getD_none,
        Nat.zero_add, Nat.add_comm]
    | succ n =>
      rw [List.getD_cons_succ] at habs
      have hlt' : n < t.length := by
        simp only [List.length_cons] at hlt
        omega
      rw [List.set_cons_succ, sumPresent_cons, sumPresent_cons, ih hlt' habs]
      exact (Nat.add_assoc _ _ _).symm

theorem set_growTo_getD_eq (l : List (Option ByteCount)) (idx : Nat)
    (s : ByteCount) :
    ((growTo l idx).set idx (some s)).getD idx none = some s := by
  rw [List.getD_eq_getElem?_getD,
    List.getElem?_set_eq_of_lt _ (by rw [growTo_length]; omega)]
  rfl

theorem set_growTo_getD_ne (l : List (Option ByteCount)) {idx j : Nat}
    (s : ByteCount) (hj : j ≠ idx) :
    ((growTo l idx).set idx (some s)).getD j none = l.getD j none := by
  rw [List.getD_eq_getElem?_getD, List.getElem?_set_ne (by omega),
    ← List.getD_eq_getElem?_getD, growTo_getD]

/-- Full effect of a successful `add_field_idx` on an absent slot. -/
theorem add_absent_spec {fu : FieldUsage} {idx : Nat} {s : ByteCount}
    (h : fu.sub_num_bytes.getD idx none = none) :
    ∃ fu', fu.add_field_idx idx s = some fu' ∧
      fu'.field = fu.field ∧
      fu'.num_bytes = fu.num_bytes + s ∧
      fu'.sub_num_bytes.length = max (idx + 1) fu.sub_num_bytes.length ∧
      fu'.sub_num_bytes.getD idx none = some s ∧
      (∀ j, j ≠ idx → fu'.sub_num_bytes.getD j none = fu.sub_num_bytes.getD j none) := by
  refine ⟨_, add_field_idx_of_absent s h, rfl, rfl, ?_,
    set_growTo_getD_eq _ _ _, fun j hj => set_growTo_getD_ne _ _ hj⟩
  rw [List.length_set, growTo_length]
  omega

theorem sumPresent_add_absent {fu : FieldUsage} {idx : Nat} (s : ByteCount)
    (h : fu.sub_num_bytes.getD idx none = none) :
    sumPresent ((growTo fu.sub_num_bytes idx).set idx (some s)) =
      sumPresent fu.sub_num_bytes + s := by
  rw [sumPresent_set s (by rw [growTo_length]; omega) (by rw [growTo_getD]; exact h),
    sumPresent_growTo]

theorem addAll_spec (segs : List SegmentSpaceUsage) :
    ∀ s : SearcherSpaceUsage,
      (s.addAll segs).segments = s.segments ++ segs ∧
      (s.addAll segs).total = s.total + (segs.map SegmentSpaceUsage.total).sum := by
  induction segs with
  | nil => intro s; simp [SearcherSpaceUsage.addAll]
  | cons seg rest ih =>
    intro s
    have h := ih (s.add_segment seg)
    simp only [SearcherSpaceUsage.addAll] at h ⊢
    rw [List.foldl_cons]
    refine ⟨?_, ?_⟩
    · rw [h.1]
      simp [SearcherSpaceUsage.add_segment]
    · rw [h.2]
      simp only [SearcherSpaceUsage.add_segment, List.map_cons, List.sum_cons]
      exact Nat.add_assoc _ _ _

/-! ### Claim theorems -/

/-- C1: `SegmentSpaceUsage::new` caches `total` as the sum of the seven
component magnitudes, and every accessor returns the corresponding
construction argument unchanged. -/
theorem segment_new_total_and_accessors (num_docs : Nat)
    (termdict postings positions fast_fields fieldnorms : PerFieldSpaceUsage)
    (store : StoreSpaceUsage) (deletes : ByteCount) :
    (SegmentSpaceUsage.new num_docs termdict postings positions fast_fields
        fieldnorms store deletes).total =
      termdict.total + postings.total + positions.total + fast_fields.total +
        fieldnorms.total + store.total + deletes ∧
    (SegmentSpaceUsage.new num_docs termdict postings positions fast_fields
        fieldnorms store deletes).num_docs = num_docs ∧
    (SegmentSpaceUsage.new num_docs termdict postings positions fast_fields
        fieldnorms store deletes).termdict = termdict ∧
    (SegmentSpaceUsage.new num_docs termdict postings positions fast_fields
        fieldnorms store deletes).postings = postings ∧
    (SegmentSpaceUsage.new num_docs termdict postings positions fast_fields
        fieldnorms store deletes).positions = positions ∧
    (SegmentSpaceUsage.new num_docs termdict postings positions fast_fields
        fieldnorms store deletes).fast_fields = fast_fields ∧
    (SegmentSpaceUsage.new num_docs termdict postings positions fast_fields
        fieldnorms store deletes).fieldnorms = fieldnorms ∧
    (SegmentSpaceUsage.new num_docs termdict postings positions fast_fields
        fieldnorms store deletes).store = store ∧
    (SegmentSpaceUsage.new num_docs termdict postings positions fast_fields
        fieldnorms store deletes).deletes = deletes :=
  ⟨rfl, rfl, rfl, rfl, rfl, rfl, rfl, rfl, rfl⟩

/-- C2: starting from `SearcherSpaceUsage::new` and appending any finite
sequence of segments via `add_segment`, `total` is the sum of the appended
segments' totals, `segments` is exactly the appended list in append order,
and the empty sequence yields zero total and no segments. -/
theorem searcher_addAll_total_and_segments (segs : List SegmentSpaceUsage) :
    (SearcherSpaceUsage.new.addAll segs).total =
      (segs.map SegmentSpaceUsage.total).sum ∧
    (SearcherSpaceUsage.new.addAll segs).segments = segs ∧
    SearcherSpaceUsage.new.total = 0 ∧
    SearcherSpaceUsage.new.segments = [] := by
  have h := addAll_spec segs SearcherSpaceUsage.new
  exact ⟨by simpa [SearcherSpaceUsage.new] using h.2,
    by simpa [SearcherSpaceUsage.new] using h.1, rfl, rfl⟩

/-- C5: `SegmentSpaceUsage::component` maps the five per-field kinds to
`PerField` of the matching per-field structure, `Store` and `TempStore`
both to `Store` of the store usage, and `Delete` to `Basic(deletes)`; the
wrapped magnitude always equals the direct accessor's total. -/
theorem segment_component_dispatch (s : SegmentSpaceUsage) :
    s.component SegmentComponent.Terms = ComponentSpaceUsage.PerField s.termdict ∧
    s.component SegmentComponent.Postings = ComponentSpaceUsage.PerField s.postings ∧
    s.component SegmentComponent.Positions = ComponentSpaceUsage.PerField s.positions ∧
    s.component SegmentComponent.FastFields = ComponentSpaceUsage.PerField s.fast_fields ∧
    s.component SegmentComponent.FieldNorms = ComponentSpaceUsage.PerField s.fieldnorms ∧
    s.component SegmentComponent.Store = ComponentSpaceUsage.Store s.store ∧
    s.component SegmentComponent.TempStore = ComponentSpaceUsage.Store s.store ∧
    s.component SegmentComponent.TempStore = s.component SegmentComponent.Store ∧
    s.component SegmentComponent.Delete = ComponentSpaceUsage.Basic s.deletes ∧
    (s.component SegmentComponent.Terms).total = s.termdict.total ∧
    (s.component SegmentComponent.Postings).total = s.postings.total ∧
    (s.component SegmentComponent.Positions).total = s.positions.total ∧
    (s.component SegmentComponent.FastFields).total = s.fast_fields.total ∧
    (s.component SegmentComponent.FieldNorms).total = s.fieldnorms.total ∧
    (s.component SegmentComponent.Store).total = s.store.total ∧
    (s.component SegmentComponent.TempStore).total = s.store.total ∧
    (s.component SegmentComponent.Delete).total = s.deletes :=
  ⟨rfl, rfl, rfl, rfl, rfl, rfl, rfl, rfl, rfl, rfl, rfl, rfl, rfl, rfl, rfl,
    rfl, rfl⟩

/-- C6: `StoreSpaceUsage::new(data, offsets)` stores its two arguments
unchanged and `total` is their sum. -/
theorem store_new_total_and_accessors (data offsets : ByteCount) :
    (StoreSpaceUsage.new data offsets).total =
      (StoreSpaceUsage.new data offsets).data_usage +
        (StoreSpaceUsage.new data offsets).offsets_usage ∧
    (StoreSpaceUsage.new data offsets).data_usage = data ∧
    (StoreSpaceUsage.new data offsets).offsets_usage = offsets :=
  ⟨rfl, rfl, rfl⟩

/-- Invariant carried through a sequence of `add_field_idx` calls with
pairwise-distinct indexes: the calls all succeed and `num_bytes` stays equal
to the sum of the present slots. -/
theorem recordAll_invariant (ops : List (Nat × ByteCount)) :
    ∀ fu : FieldUsage,
      fu.num_bytes = sumPresent fu.sub_num_bytes →
      (ops.map Prod.fst).Nodup →
      (∀ j, (fu.sub_num_bytes.getD j none).isSome → j ∉ ops.map Prod.fst) →
      ∃ fu', fu.recordAll ops = some fu' ∧
        fu'.num_bytes = sumPresent fu'.sub_num_bytes := by
  induction ops with
  | nil => exact fun fu h1 _ _ => ⟨fu, rfl, h1⟩
  | cons op rest ih =>
    intro fu h1 h2 h3
    obtain ⟨idx, s⟩ := op
    have habs : fu.sub_num_bytes.getD idx none = none := by
      cases hc : fu.sub_num_bytes.getD idx none with
      | none => rfl
      | some v =>
        exact absurd (by simp) (h3 idx (by rw [hc]; rfl))
    have hstep : fu.recordAll ((idx, s) :: rest) =
        FieldUsage.recordAll
          (FieldUsage.mk fu.field (fu.num_bytes + s)
            ((growTo fu.sub_num_bytes idx).set idx (some s)))
          rest := by
      simp [FieldUsage.recordAll, add_field_idx_of_absent s habs]
    rw [hstep]
    apply ih
    · show fu.num_bytes + s = _
      rw [sumPresent_add_absent s habs, h1]
    · exact (List.nodup_cons.mp (by simpa using h2)).2
    · intro j hj
      by_cases hji : j = idx
      · subst hji
        exact (List.nodup_cons.mp (by simpa using h2)).1
      · rw [show (FieldUsage.mk fu.field (fu.num_bytes + s)
              ((growTo fu.sub_num_bytes idx).set idx (some s))).sub_num_bytes =
            (growTo fu.sub_num_bytes idx).set idx (some s) from rfl,
          set_growTo_getD_ne _ s hji] at hj
        have := h3 j hj
        simp only [List.map_cons, List.mem_cons] at this
        intro hmem
        exact this (Or.inr hmem)

theorem assocFind_cons (p : Field × FieldUsage) (rest : List (Field × FieldUsage))
    (f : Field) :
    assocFind (p :: rest) f =
      if p.1 == f then some p.2 else assocFind rest f := by
  simp only [assocFind, List.find?_cons]
  cases h : (p.1 == f) <;> simp [h]

theorem assocFind_insert (m : List (Field × FieldUsage)) (k : Field)
    (v : FieldUsage) (f : Field) :
    assocFind (assocInsert m k v) f = if k == f then some v else assocFind m f := by
  induction m with
  | nil =>
    rw [show assocInsert [] k v = [(k, v)] from rfl, assocFind_cons]
  | cons p rest ih =>
    rw [show assocInsert (p :: rest) k v =
        (if p.1 == k then (k, v) :: rest else p :: assocInsert rest k v) from rfl]
    by_cases hpk : p.1 = k
    · rw [if_pos (by simp [hpk]), assocFind_cons, assocFind_cons]
      by_cases hkf : k = f
      · simp [hkf]
      · simp only [show (k == f) = false by simp [hkf], Bool.false_eq_true,
          if_false]
        rw [if_neg (by simp [hpk, hkf])]
    · rw [if_neg (by simp [hpk]), assocFind_cons, ih, assocFind_cons]
      by_cases hpf : p.1 = f
      · have hkf : ¬ k = f := fun h => hpk (by rw [hpf, h])
        simp [hpf, hkf]
      · simp [show (p.1 == f) = false by simp [hpf]]

theorem assocFind_foldl (fus : List FieldUsage) :
    ∀ (m : List (Field × FieldUsage)) (f : Field),
      assocFind (fus.foldl (fun acc fu => assocInsert acc fu.field fu) m) f =
        (fus.reverse.find? (fun fu => fu.field == f)).or (assocFind m f) := by
  induction fus with
  | nil => intro m f; simp
  | cons fu rest ih =>
    intro m f
    rw [List.foldl_cons, ih, List.reverse_cons, List.find?_append,
      Option.or_assoc, assocFind_insert]
    cases hpf : (fu.field == f) <;> simp [List.find?_cons, hpf]

/-! ### Remaining claim theorems -/

/-- C3: building a `FieldUsage` with `empty(field)` followed by any finite
sequence of `add_field_idx` calls with pairwise-distinct sub-part indexes
succeeds, and the result's `total()` equals the sum of the present entries
of `sub_num_bytes`. -/
theorem recordAll_distinct_total (f : Field) (ops : List (Nat × ByteCount))
    (h : (ops.map Prod.fst).Nodup) :
    ∃ fu, (FieldUsage.empty f).recordAll ops = some fu ∧
      fu.total = sumPresent fu.sub_num_bytes :=
  recordAll_invariant ops (FieldUsage.empty f) rfl h
    (fun j hj => by simp [FieldUsage.empty] at hj)

theorem recordAll_distinct_total_witness :
    (([(1, 5), (0, 3), (4, 2)].map (Prod.fst (β := ByteCount))).Nodup) ∧
    ∃ fu, (FieldUsage.empty 7).recordAll [(1, 5), (0, 3), (4, 2)] = some fu ∧
      fu.total = sumPresent fu.sub_num_bytes :=
  ⟨by decide, recordAll_distinct_total 7 [(1, 5), (0, 3), (4, 2)] (by decide)⟩

/-- C4: calling `add_field_idx` on a slot that already holds a value takes
the fatal assertion branch (the call does not return normally), and the
state at the point of failure still carries the original `num_bytes`: the
only mutation preceding the assertion (the conditional resize) never
touches `num_bytes`. -/
theorem add_field_idx_duplicate_fails (fu : FieldUsage) (idx : Nat)
    (s : ByteCount) (h : (fu.sub_num_bytes.getD idx none).isSome) :
    fu.add_field_idx idx s = none ∧
    ({ fu with sub_num_bytes := growTo fu.sub_num_bytes idx } :
      FieldUsage).num_bytes = fu.num_bytes :=
  ⟨add_field_idx_of_present s h, rfl⟩

theorem add_field_idx_duplicate_fails_witness :
    ((FieldUsage.mk 0 5 [some 5]).sub_num_bytes.getD 0 none).isSome ∧
    ((FieldUsage.mk 0 5 [some 5]).add_field_idx 0 7 = none ∧
      ({ FieldUsage.mk 0 5 [some 5] with
           sub_num_bytes :=
             growTo (FieldUsage.mk 0 5 [some 5]).sub_num_bytes 0 } :
        FieldUsage).num_bytes = (FieldUsage.mk 0 5 [some 5]).num_bytes) :=
  ⟨by decide, add_field_idx_duplicate_fails (FieldUsage.mk 0 5 [some 5]) 0 7
    (by decide)⟩

/-- C8: `add_field_idx` on an absent slot (out of range or an empty slot)
succeeds, sets the slot to the recorded size, grows the sequence to length
`idx+1` when needed with new intermediate slots absent, adds exactly `size`
to `num_bytes`, and leaves the field identifier and all other slots
unchanged. -/
theorem add_field_idx_absent_updates (fu : FieldUsage) (idx : Nat)
    (s : ByteCount) (h : fu.sub_num_bytes.getD idx none = none) :
    ∃ fu', fu.add_field_idx idx s = some fu' ∧
      fu'.field = fu.field ∧
      fu'.num_bytes = fu.num_bytes + s ∧
      fu'.sub_num_bytes.length = max (idx + 1) fu.sub_num_bytes.length ∧
      fu'.sub_num_bytes.getD idx none = some s ∧
      (∀ j, j ≠ idx → fu'.sub_num_bytes.getD j none = fu.sub_num_bytes.getD j none) :=
  add_absent_spec h

theorem add_field_idx_absent_updates_witness :
    (FieldUsage.mk 3 9 [some 9]).sub_num_bytes.getD 2 none = none ∧
    ∃ fu', (FieldUsage.mk 3 9 [some 9]).add_field_idx 2 7 = some fu' ∧
      fu'.field = (FieldUsage.mk 3 9 [some 9]).field ∧
      fu'.num_bytes = (FieldUsage.mk 3 9 [some 9]).num_bytes + 7 ∧
      fu'.sub_num_bytes.length =
        max (2 + 1) (FieldUsage.mk 3 9 [some 9]).sub_num_bytes.length ∧
      fu'.sub_num_bytes.getD 2 none = some 7 ∧
      (∀ j, j ≠ 2 → fu'.sub_num_bytes.getD j none =
        (FieldUsage.mk 3 9 [some 9]).sub_num_bytes.getD j none) :=
  ⟨rfl, add_field_idx_absent_updates (FieldUsage.mk 3 9 [some 9]) 2 7 rfl⟩

/-- C9: when the slot at `idx` already holds a value the sequence already
reaches past `idx`, so the conditional resize is the identity: the
`FieldUsage` at the point of the fatal assertion is exactly the original
(field, `num_bytes`, and the whole `sub_num_bytes` sequence), and the call
fails — the failed operation is atomic. -/
theorem add_field_idx_duplicate_atomic (fu : FieldUsage) (idx : Nat)
    (s : ByteCount) (h : (fu.sub_num_bytes.getD idx none).isSome) :
    idx < fu.sub_num_bytes.length ∧
    ({ fu with sub_num_bytes := growTo fu.sub_num_bytes idx } :
      FieldUsage) = fu ∧
    fu.add_field_idx idx s = none :=
  ⟨getD_isSome_lt h, by rw [growTo_of_present h], add_field_idx_of_present s h⟩

theorem add_field_idx_duplicate_atomic_witness :
    ((FieldUsage.mk 2 4 [none, some 4]).sub_num_bytes.getD 1 none).isSome ∧
    (1 < (FieldUsage.mk 2 4 [none, some 4]).sub_num_bytes.length ∧
      ({ FieldUsage.mk 2 4 [none, some 4] with
           sub_num_bytes :=
             growTo (FieldUsage.mk 2 4 [none, some 4]).sub_num_bytes 1 } :
        FieldUsage) = FieldUsage.mk 2 4 [none, some 4] ∧
      (FieldUsage.mk 2 4 [none, some 4]).add_field_idx 1 6 = none) :=
  ⟨by decide, add_field_idx_duplicate_atomic (FieldUsage.mk 2 4 [none, some 4])
    1 6 (by decide)⟩

/-- C10: recording size zero at an absent slot succeeds and marks the slot
present as `some 0`, observably distinct from an absent slot; `total()` is
unchanged by the zero-size record, and a second record at the same index
then fails even though the recorded size was zero. -/
theorem add_field_idx_zero_size (fu : FieldUsage) (idx : Nat)
    (h : fu.sub_num_bytes.getD idx none = none) :
    ∃ fu', fu.add_field_idx idx 0 = some fu' ∧
      fu'.sub_num_bytes.getD idx none = some 0 ∧
      fu'.sub_num_bytes.getD idx none ≠ none ∧
      fu'.total = fu.total ∧
      ∀ s, fu'.add_field_idx idx s = none := by
  obtain ⟨fu', heq, _, hnum, _, hidx, _⟩ := add_absent_spec (s := 0) h
  refine ⟨fu', heq, hidx, by rw [hidx]; exact fun hc => Option.noConfusion hc,
    ?_, ?_⟩
  · show fu'.num_bytes = fu.num_bytes
    rw [hnum, Nat.add_zero]
  · intro s
    exact add_field_idx_of_present s (by rw [hidx]; rfl)

theorem add_field_idx_zero_size_witness :
    (FieldUsage.mk 1 4 [some 4]).sub_num_bytes.getD 1 none = none ∧
    ∃ fu', (FieldUsage.mk 1 4 [some 4]).add_field_idx 1 0 = some fu' ∧
      fu'.sub_num_bytes.getD 1 none = some 0 ∧
      fu'.sub_num_bytes.getD 1 none ≠ none ∧
      fu'.total = (FieldUsage.mk 1 4 [some 4]).total ∧
      ∀ s, fu'.add_field_idx 1 s = none :=
  ⟨rfl, add_field_idx_zero_size (FieldUsage.mk 1 4 [some 4]) 1 rfl⟩

/-- C7: `PerFieldSpaceUsage::new` computes `total` as the sum of the totals
of all input entries (duplicates included), and the `fields` map is keyed
by field identifier with the last list entry for a given identifier winning
when duplicates occur. -/
theorem per_field_new_total_and_last_wins (fus : List FieldUsage) (f : Field) :
    (PerFieldSpaceUsage.new fus).total = (fus.map FieldUsage.total).sum ∧
    (PerFieldSpaceUsage.new fus).getField f =
      fus.reverse.find? (fun fu => fu.field == f) := by
  refine ⟨rfl, ?_⟩
  show assocFind (fus.foldl (fun acc fu => assocInsert acc fu.field fu) []) f = _
  rw [assocFind_foldl]
  simp [assocFind]

end SpaceUsage
